import Mathlib

/-!
Verification of `react_native_fix_hermes_decomp.py` (JSRETK).

The script's core, `fix_react_native_hermes_decompilation`, reads a file and
then applies, for `iterations` rounds, two `re.sub` substitutions in fixed
order over the whole text:

  rule 1 : `\.(@@[a-zA-Z0-9_]+)`            ->  `[`\1`]`
  rule 2 : `(= /[^\n]*)(\\\\/)([^\n]*/)`    ->  `\1\\/\3`

Texts are embedded as `List Char`.  `re.sub` is embedded as a left-to-right
scan that, at each position, attempts an anchored match and, on success,
emits the replacement and resumes after the match; greedy `[^\n]*` groups
are resolved exactly as the backtracking engine does (the leftmost match
start wins, and inside a match the leftmost `*` is as long as possible, so
rule 2's `\\/` group lands on the rightmost viable occurrence in the line,
and group 3's closing `/` on the last slash of the line).  The scanning
functions take a fuel argument (structural recursion, so the kernel can
evaluate them); fuel equal to the text length always suffices because every
step consumes at least one character.
-/

namespace JSRETK

/-- The character class `[a-zA-Z0-9_]` of rule 1 (ASCII letters, digits, underscore). -/
def isWordChar (c : Char) : Bool := c.isAlpha || c.isDigit || c == '_'

/-- The backquote character used by rule 1's replacement template. -/
def backquote : Char := Char.ofNat 96

/-- Anchored match of rule 1's regex `\.(@@[a-zA-Z0-9_]+)` at the head of the
text: a literal dot, then `@@`, then a non-empty greedy run of word
characters.  Returns the capture group `@@ident` and the rest of the text. -/
def matchAt1 : List Char → Option (List Char × List Char)
  | '.' :: '@' :: '@' :: t =>
    if (t.takeWhile isWordChar).isEmpty then none
    else some ('@' :: '@' :: t.takeWhile isWordChar, t.dropWhile isWordChar)
  | _ => none

/-- Fuelled left-to-right scan of `re.sub` for rule 1: at each position try the
anchored match; on success emit the replacement `[`\1`]` and resume after the
match, otherwise copy one character. -/
def sub1F : Nat → List Char → List Char
  | _, [] => []
  | 0, l => l
  | fuel + 1, c :: cs =>
    match matchAt1 (c :: cs) with
    | some (g, rest) => '[' :: backquote :: g ++ backquote :: ']' :: sub1F fuel rest
    | none => c :: sub1F fuel cs

/-- `re.sub` of rule 1 over a whole text. -/
def sub1 (l : List Char) : List Char := sub1F l.length l

/-- Head test used by `splitLastEsc`: does `c :: cs` start with the literal
`\\/` (backslash, backslash, slash), with a further `/` available afterwards
(so that group 3 `[^\n]*/` can still match)?  On success returns the empty
prefix and the remainder after the three-character literal. -/
def escCheck (c : Char) (cs : List Char) : Option (List Char × List Char) :=
  match cs with
  | c2 :: c3 :: t =>
    if c = '\\' ∧ c2 = '\\' ∧ c3 = '/' ∧ t.contains '/' then some ([], t) else none
  | _ => none

/-- Split a line at the rightmost occurrence of `\\/` (backslash, backslash,
slash) that is still followed by a `/` later in the line — exactly the
occurrence rule 2's greedy group 1 leaves for group 2.  Returns the part
before the occurrence and the part after it. -/
def splitLastEsc : List Char → Option (List Char × List Char)
  | [] => none
  | c :: cs =>
    match splitLastEsc cs with
    | some (a, r) => some (c :: a, r)
    | none => escCheck c cs

/-- Split a list at its last `/` (rule 2's greedy group 3 ends at the last
slash of the line).  Returns the part before that slash and the part after. -/
def splitLastSlash : List Char → Option (List Char × List Char)
  | [] => none
  | c :: cs =>
    match splitLastSlash cs with
    | some (b, r) => some (c :: b, r)
    | none => if c == '/' then some ([], cs) else none

/-- Anchored match of rule 2's regex `(= /[^\n]*)(\\\\/)([^\n]*/)` at the head
of the text.  On success returns the instantiated replacement `\1\\/\3`
together with the rest of the text after the match. -/
def matchAt2 : List Char → Option (List Char × List Char)
  | '=' :: ' ' :: '/' :: rest =>
    match splitLastEsc (rest.takeWhile (fun c => c != '\n')) with
    | none => none
    | some (a, r) =>
      match splitLastSlash r with
      | none => none
      | some (b, c) =>
        some ('=' :: ' ' :: '/' :: a ++ '\\' :: '/' :: b ++ ['/'],
              c ++ rest.dropWhile (fun c => c != '\n'))
  | _ => none

/-- Fuelled left-to-right scan of `re.sub` for rule 2. -/
def sub2F : Nat → List Char → List Char
  | _, [] => []
  | 0, l => l
  | fuel + 1, c :: cs =>
    match matchAt2 (c :: cs) with
    | some (repl, rest) => repl ++ sub2F fuel rest
    | none => c :: sub2F fuel cs

/-- `re.sub` of rule 2 over a whole text. -/
def sub2 (l : List Char) : List Char := sub2F l.length l

/-- The ordered rule set, mirroring the `replacements` dict of the script
(Python dicts iterate in insertion order: rule 1 first, then rule 2). -/
def replacements : List (List Char → List Char) := [sub1, sub2]

/-- The iteration loop of `fix_react_native_hermes_decompilation`:
`for i in range(0, iterations): for regex in replacements: data = re.sub(...)`. -/
def rewrite (data : List Char) (iterations : Nat) : List Char :=
  (List.range iterations).foldl (fun d _ => replacements.foldl (fun d f => f d) d) data

/-- One full pass of the rule set: rule 1, then rule 2 on rule 1's output. -/
def onePass (d : List Char) : List Char := sub2 (sub1 d)

/-- `true` iff rule 1's regex matches somewhere in the text. -/
def hasDefect1 : List Char → Bool
  | [] => false
  | c :: cs => (matchAt1 (c :: cs)).isSome || hasDefect1 cs

/-- `true` iff rule 2's regex matches somewhere in the text. -/
def hasDefect2 : List Char → Bool
  | [] => false
  | c :: cs => (matchAt2 (c :: cs)).isSome || hasDefect2 cs

/-- Default iteration count of the script. -/
def DEFAULT_ITERATIONS_COUNT : Nat := 100

/-- The script's `fix_react_native_hermes_decompilation(fpath, iterations)`:
it first reads the input file (a fallible operation, embedded as an
`Option (List Char)` argument; `none` means `open`/`read` raised) and only
then rewrites.  A read failure propagates as an error before any processing. -/
def fix_react_native_hermes_decompilation
    (contents : Option (List Char)) (iterations : Nat) : Except Unit (List Char) :=
  match contents with
  | none => Except.error ()
  | some data => Except.ok (rewrite data iterations)

/-- Observable outcome of one run of the command-line tool: the output file's
contents if one was written, and whether the process exited with status 0. -/
structure ToolRun where
  written : Option (List Char)
  exitZero : Bool
  deriving DecidableEq, Repr

/-- The `__main__` block: run `fix_react_native_hermes_decompilation` on the
input file's contents, then write the result to the output file.  An
unhandled exception (e.g. the input file cannot be read) aborts the process
with a nonzero exit status before the output file is opened. -/
def run_tool (contents : Option (List Char)) (iterations : Nat) : ToolRun :=
  match fix_react_native_hermes_decompilation contents iterations with
  | Except.error _ => { written := none, exitZero := false }
  | Except.ok d => { written := some d, exitZero := true }

/-! ### Structural lemmas about the matchers -/

lemma splitLastSlash_eq {l a r : List Char} (h : splitLastSlash l = some (a, r)) :
    l = a ++ '/' :: r := by
  induction l generalizing a r with
  | nil => simp [splitLastSlash] at h
  | cons c cs ih =>
    rw [splitLastSlash] at h
    split at h
    · rename_i b r' heq
      obtain ⟨rfl, rfl⟩ : c :: b = a ∧ r' = r := by
        simpa using h
      simp [ih heq]
    · rename_i heq
      split at h
      · rename_i hc
        obtain ⟨rfl, rfl⟩ : ([] : List Char) = a ∧ cs = r := by
          simpa using h
        simp [show c = '/' by simpa using hc]
      · simp at h

lemma escCheck_eq {c : Char} {cs a r : List Char} (h : escCheck c cs = some (a, r)) :
    c = '\\' ∧ a = [] ∧ cs = '\\' :: '/' :: r := by
  unfold escCheck at h
  split at h
  · rename_i c2 c3 t
    split at h
    · rename_i hc
      obtain ⟨rfl, rfl⟩ : ([] : List Char) = a ∧ t = r := by simpa using h
      exact ⟨hc.1, rfl, by simp [hc.2.1, hc.2.2.1]⟩
    · simp at h
  · simp at h

lemma splitLastEsc_eq {l a r : List Char} (h : splitLastEsc l = some (a, r)) :
    l = a ++ '\\' :: '\\' :: '/' :: r := by
  induction l generalizing a r with
  | nil => simp [splitLastEsc] at h
  | cons c cs ih =>
    rw [splitLastEsc] at h
    split at h
    · rename_i a' r' heq
      obtain ⟨rfl, rfl⟩ : c :: a' = a ∧ r' = r := by
        simpa using h
      simp [ih heq]
    · rename_i heq
      obtain ⟨rfl, rfl, rfl⟩ := escCheck_eq h
      simp

lemma splitLastEsc_isSome : ∀ (p r : List Char), r.contains '/' →
    (splitLastEsc (p ++ '\\' :: '\\' :: '/' :: r)).isSome = true := by
  intro p
  induction p with
  | nil =>
    intro r hr
    rw [List.nil_append, splitLastEsc]
    cases hs : splitLastEsc ('\\' :: '/' :: r) with
    | some q => simp
    | none =>
      simp only [escCheck, hr]
      simp
  | cons c p' ih =>
    intro r hr
    rw [List.cons_append, splitLastEsc]
    cases hs : splitLastEsc (p' ++ '\\' :: '\\' :: '/' :: r) with
    | some q => simp
    | none =>
      have := ih r hr
      rw [hs] at this
      simp at this

lemma splitLastEsc_rightmost : ∀ {l a r : List Char}, splitLastEsc l = some (a, r) →
    ∀ a' r', l = a' ++ '\\' :: '\\' :: '/' :: r' → r'.contains '/' →
    a'.length ≤ a.length := by
  intro l
  induction l with
  | nil =>
    intro a r h
    simp [splitLastEsc] at h
  | cons c cs ih =>
    intro a r h a' r' hdec hr
    rw [splitLastEsc] at h
    split at h
    · rename_i a0 r0 heq
      obtain ⟨rfl, rfl⟩ : c :: a0 = a ∧ r0 = r := by simpa using h
      cases a' with
      | nil => simp
      | cons c' a'' =>
        injection hdec with hc hdec'
        have := ih heq a'' r' hdec' hr
        simp only [List.length_cons]
        omega
    · rename_i heq
      obtain ⟨rfl, rfl, hcs⟩ := escCheck_eq h
      cases a' with
      | nil => simp
      | cons c' a'' =>
        injection hdec with hc hdec'
        rw [List.append_eq] at hdec'
        have hsome := splitLastEsc_isSome a'' r' hr
        rw [← hdec', heq] at hsome
        simp at hsome

lemma matchAt1_eq {cs g rest : List Char} (h : matchAt1 cs = some (g, rest)) :
    ∃ w, w ≠ [] ∧ (∀ x ∈ w, isWordChar x) ∧ g = '@' :: '@' :: w ∧
      cs = '.' :: '@' :: '@' :: (w ++ rest) := by
  rw [matchAt1.eq_def] at h
  split at h
  · rename_i t
    split at h
    · simp at h
    · rename_i hne
      obtain ⟨rfl, rfl⟩ : '@' :: '@' :: t.takeWhile isWordChar = g ∧
          t.dropWhile isWordChar = rest := by simpa using h
      refine ⟨t.takeWhile isWordChar, by simpa [List.isEmpty_iff] using hne,
        fun x hx => List.mem_takeWhile_imp hx, rfl, ?_⟩
      simp [List.takeWhile_append_dropWhile]
  · simp at h

lemma matchAt1_length {cs g rest : List Char} (h : matchAt1 cs = some (g, rest)) :
    rest.length < cs.length := by
  obtain ⟨w, -, -, -, hcs⟩ := matchAt1_eq h
  subst hcs
  simp
  omega

lemma matchAt2_eq {cs repl rest : List Char} (h : matchAt2 cs = some (repl, rest)) :
    ∃ r0 a r b c,
      cs = '=' :: ' ' :: '/' :: r0 ∧
      splitLastEsc (r0.takeWhile (fun x => x != '\n')) = some (a, r) ∧
      splitLastSlash r = some (b, c) ∧
      repl = '=' :: ' ' :: '/' :: a ++ '\\' :: '/' :: b ++ ['/'] ∧
      rest = c ++ r0.dropWhile (fun x => x != '\n') := by
  rw [matchAt2.eq_def] at h
  split at h
  · rename_i r0
    split at h
    · simp at h
    · rename_i a r heq
      split at h
      · simp at h
      · rename_i b c heq2
        obtain ⟨rfl, rfl⟩ :
            '=' :: ' ' :: '/' :: a ++ '\\' :: '/' :: b ++ ['/'] = repl ∧
            c ++ r0.dropWhile (fun x => x != '\n') = rest := by simpa using h
        exact ⟨r0, a, r, b, c, rfl, heq, heq2, rfl, rfl⟩
  · simp at h

lemma matchAt2_length {cs repl rest : List Char} (h : matchAt2 cs = some (repl, rest)) :
    rest.length < cs.length := by
  obtain ⟨r0, a, r, b, c, hcs, hesc, hslash, -, hrest⟩ := matchAt2_eq h
  have hline := splitLastEsc_eq hesc
  have hr := splitLastSlash_eq hslash
  have hsplit : r0.takeWhile (fun x => x != '\n') ++ r0.dropWhile (fun x => x != '\n') = r0 :=
    List.takeWhile_append_dropWhile ..
  subst hcs hrest
  have h1 : r0.length =
      (r0.takeWhile (fun x => x != '\n')).length + (r0.dropWhile (fun x => x != '\n')).length := by
    rw [← List.length_append, hsplit]
  rw [hline] at h1
  rw [hr] at h1
  simp at h1 ⊢
  omega

/-! ### Fuel irrelevance and unfolding equations for the two substitutions -/

lemma sub1F_congr : ∀ (f g : Nat) (l : List Char), l.length ≤ f → l.length ≤ g →
    sub1F f l = sub1F g l := by
  intro f
  induction f with
  | zero =>
    intro g l hf _
    obtain rfl : l = [] := List.eq_nil_of_length_eq_zero (Nat.le_zero.mp hf)
    cases g <;> simp [sub1F]
  | succ f ih =>
    intro g l hf hg
    cases l with
    | nil => cases g <;> simp [sub1F]
    | cons c cs =>
      cases g with
      | zero => simp at hg
      | succ g' =>
        cases hm : matchAt1 (c :: cs) with
        | some p =>
          obtain ⟨gr, rest⟩ := p
          have hlen := matchAt1_length hm
          simp only [List.length_cons] at hf hg hlen
          simp only [sub1F, hm]
          rw [ih g' rest (by omega) (by omega)]
        | none =>
          simp only [List.length_cons] at hf hg
          simp only [sub1F, hm]
          rw [ih g' cs (by omega) (by omega)]

lemma sub1F_eq_sub1 {f : Nat} {l : List Char} (h : l.length ≤ f) : sub1F f l = sub1 l :=
  sub1F_congr f l.length l h le_rfl

lemma sub1_nil : sub1 [] = [] := rfl

lemma sub1_cons_match {c : Char} {cs g rest : List Char}
    (h : matchAt1 (c :: cs) = some (g, rest)) :
    sub1 (c :: cs) = '[' :: backquote :: g ++ backquote :: ']' :: sub1 rest := by
  have hlen := matchAt1_length h
  simp only [List.length_cons] at hlen
  show sub1F (c :: cs).length (c :: cs) = _
  simp only [List.length_cons, sub1F, h]
  rw [sub1F_eq_sub1 (by omega)]

lemma sub1_cons_nomatch {c : Char} {cs : List Char} (h : matchAt1 (c :: cs) = none) :
    sub1 (c :: cs) = c :: sub1 cs := by
  show sub1F (c :: cs).length (c :: cs) = _
  simp only [List.length_cons, sub1F, h]
  rw [sub1F_eq_sub1 le_rfl]

lemma sub2F_congr : ∀ (f g : Nat) (l : List Char), l.length ≤ f → l.length ≤ g →
    sub2F f l = sub2F g l := by
  intro f
  induction f with
  | zero =>
    intro g l hf _
    obtain rfl : l = [] := List.eq_nil_of_length_eq_zero (Nat.le_zero.mp hf)
    cases g <;> simp [sub2F]
  | succ f ih =>
    intro g l hf hg
    cases l with
    | nil => cases g <;> simp [sub2F]
    | cons c cs =>
      cases g with
      | zero => simp at hg
      | succ g' =>
        cases hm : matchAt2 (c :: cs) with
        | some p =>
          obtain ⟨repl, rest⟩ := p
          have hlen := matchAt2_length hm
          simp only [List.length_cons] at hf hg hlen
          simp only [sub2F, hm]
          rw [ih g' rest (by omega) (by omega)]
        | none =>
          simp only [List.length_cons] at hf hg
          simp only [sub2F, hm]
          rw [ih g' cs (by omega) (by omega)]

lemma sub2F_eq_sub2 {f : Nat} {l : List Char} (h : l.length ≤ f) : sub2F f l = sub2 l :=
  sub2F_congr f l.length l h le_rfl

lemma sub2_nil : sub2 [] = [] := rfl

lemma sub2_cons_match {c : Char} {cs repl rest : List Char}
    (h : matchAt2 (c :: cs) = some (repl, rest)) :
    sub2 (c :: cs) = repl ++ sub2 rest := by
  have hlen := matchAt2_length h
  simp only [List.length_cons] at hlen
  show sub2F (c :: cs).length (c :: cs) = _
  simp only [List.length_cons, sub2F, h]
  rw [sub2F_eq_sub2 (by omega)]

lemma sub2_cons_nomatch {c : Char} {cs : List Char} (h : matchAt2 (c :: cs) = none) :
    sub2 (c :: cs) = c :: sub2 cs := by
  show sub2F (c :: cs).length (c :: cs) = _
  simp only [List.length_cons, sub2F, h]
  rw [sub2F_eq_sub2 le_rfl]

/-! ### Newline preservation -/

lemma count_nl_eq_zero {w : List Char} (hw : ∀ x ∈ w, x ≠ '\n') : w.count '\n' = 0 :=
  List.count_eq_zero.mpr (fun hmem => (hw _ hmem) rfl)

lemma count_nl_sub1 : ∀ (n : Nat) (l : List Char), l.length ≤ n →
    (sub1 l).count '\n' = l.count '\n' := by
  intro n
  induction n with
  | zero =>
    intro l h
    obtain rfl : l = [] := List.eq_nil_of_length_eq_zero (Nat.le_zero.mp h)
    rfl
  | succ n ih =>
    intro l h
    cases l with
    | nil => rfl
    | cons c cs =>
      cases hm : matchAt1 (c :: cs) with
      | some p =>
        obtain ⟨g, rest⟩ := p
        obtain ⟨w, -, hw_word, rfl, hcs⟩ := matchAt1_eq hm
        have hlen := matchAt1_length hm
        simp only [List.length_cons] at h hlen
        have hw0 : w.count '\n' = 0 :=
          count_nl_eq_zero (fun x hx => by
            intro hx'
            subst hx'
            exact absurd (hw_word _ hx) (by decide))
        have hrest : (sub1 rest).count '\n' = rest.count '\n' := ih rest (by omega)
        rw [sub1_cons_match hm, hcs]
        simp +decide [List.count_cons, List.count_append, hrest, hw0]
      | none =>
        simp only [List.length_cons] at h
        rw [sub1_cons_nomatch hm]
        simp [List.count_cons, ih cs (by omega)]

lemma count_nl_sub2 : ∀ (n : Nat) (l : List Char), l.length ≤ n →
    (sub2 l).count '\n' = l.count '\n' := by
  intro n
  induction n with
  | zero =>
    intro l h
    obtain rfl : l = [] := List.eq_nil_of_length_eq_zero (Nat.le_zero.mp h)
    rfl
  | succ n ih =>
    intro l h
    cases l with
    | nil => rfl
    | cons c cs =>
      cases hm : matchAt2 (c :: cs) with
      | some p =>
        obtain ⟨repl, rest⟩ := p
        obtain ⟨r0, a, r, b, c', hcs, hesc, hslash, hrepl, hrest⟩ := matchAt2_eq hm
        have hlen := matchAt2_length hm
        simp only [List.length_cons] at h hlen
        have hline := splitLastEsc_eq hesc
        have hr := splitLastSlash_eq hslash
        have hnl_line : ∀ x ∈ r0.takeWhile (fun y => y != '\n'), x ≠ '\n' :=
          fun x hx => by simpa using List.mem_takeWhile_imp hx
        have ha0 : a.count '\n' = 0 := count_nl_eq_zero (fun x hx =>
          hnl_line x (by rw [hline]; exact List.mem_append_left _ hx))
        have hb0 : b.count '\n' = 0 := count_nl_eq_zero (fun x hx =>
          hnl_line x (by
            rw [hline]
            refine List.mem_append_right _ ?_
            simp [hr, hx]))
        have hc0 : c'.count '\n' = 0 := count_nl_eq_zero (fun x hx =>
          hnl_line x (by
            rw [hline]
            refine List.mem_append_right _ ?_
            simp [hr, hx]))
        have h0 : (r0.takeWhile (fun y => y != '\n')).count '\n' = 0 :=
          count_nl_eq_zero hnl_line
        have hsplit : r0.takeWhile (fun y => y != '\n') ++ r0.dropWhile (fun y => y != '\n') = r0 :=
          List.takeWhile_append_dropWhile ..
        have hr0 : r0.count '\n' = (r0.dropWhile (fun y => y != '\n')).count '\n' := by
          conv_lhs => rw [← hsplit]
          rw [List.count_append, h0, Nat.zero_add]
        have hrestc : (sub2 rest).count '\n' = rest.count '\n' := ih rest (by omega)
        rw [sub2_cons_match hm, hcs, hrepl, hrest] at *
        simp +decide [List.count_cons, List.count_append, hrestc, ha0, hb0, hc0, hr0]
      | none =>
        simp only [List.length_cons] at h
        rw [sub2_cons_nomatch hm]
        simp [List.count_cons, ih cs (by omega)]

/-! ### Texts without defects are fixed points -/

lemma sub1_id_of_no_defect : ∀ (n : Nat) (l : List Char), l.length ≤ n →
    hasDefect1 l = false → sub1 l = l := by
  intro n
  induction n with
  | zero =>
    intro l h _
    obtain rfl : l = [] := List.eq_nil_of_length_eq_zero (Nat.le_zero.mp h)
    rfl
  | succ n ih =>
    intro l h hd
    cases l with
    | nil => rfl
    | cons c cs =>
      cases hm : matchAt1 (c :: cs) with
      | some p => simp [hasDefect1, hm] at hd
      | none =>
        simp only [List.length_cons] at h
        rw [hasDefect1, hm] at hd
        simp only [Option.isSome_none, Bool.false_or] at hd
        rw [sub1_cons_nomatch hm, ih cs (by omega) hd]

lemma sub2_id_of_no_defect : ∀ (n : Nat) (l : List Char), l.length ≤ n →
    hasDefect2 l = false → sub2 l = l := by
  intro n
  induction n with
  | zero =>
    intro l h _
    obtain rfl : l = [] := List.eq_nil_of_length_eq_zero (Nat.le_zero.mp h)
    rfl
  | succ n ih =>
    intro l h hd
    cases l with
    | nil => rfl
    | cons c cs =>
      cases hm : matchAt2 (c :: cs) with
      | some p => simp [hasDefect2, hm] at hd
      | none =>
        simp only [List.length_cons] at h
        rw [hasDefect2, hm] at hd
        simp only [Option.isSome_none, Bool.false_or] at hd
        rw [sub2_cons_nomatch hm, ih cs (by omega) hd]

/-! ### Rule 1 rewrites every occurrence in a single pass -/

lemma matchAt1_ne_dot {c : Char} {t : List Char} (hc : c ≠ '.') : matchAt1 (c :: t) = none := by
  cases hm : matchAt1 (c :: t) with
  | none => rfl
  | some p =>
    obtain ⟨g, rest⟩ := p
    obtain ⟨w, -, -, -, hcs⟩ := matchAt1_eq hm
    exact absurd (by injection hcs) hc

lemma hasDefect1_append_of_no_dot {p y : List Char} (hp : ∀ x ∈ p, x ≠ '.') :
    hasDefect1 (p ++ y) = hasDefect1 y := by
  induction p with
  | nil => rfl
  | cons a p' ih =>
    have ha : a ≠ '.' := hp a (by simp)
    rw [List.cons_append, hasDefect1, matchAt1_ne_dot ha]
    simpa using ih (fun x hx => hp x (by simp [hx]))

lemma sub1_shape (cs : List Char) :
    cs = [] ∨
    (∃ g rest, matchAt1 cs = some (g, rest) ∧
      sub1 cs = '[' :: backquote :: g ++ backquote :: ']' :: sub1 rest) ∨
    (∃ c cs', cs = c :: cs' ∧ matchAt1 cs = none ∧ sub1 cs = c :: sub1 cs') := by
  cases cs with
  | nil => exact Or.inl rfl
  | cons c cs' =>
    cases hm : matchAt1 (c :: cs') with
    | some p =>
      obtain ⟨g, rest⟩ := p
      exact Or.inr (Or.inl ⟨g, rest, rfl, sub1_cons_match hm⟩)
    | none => exact Or.inr (Or.inr ⟨c, cs', rfl, rfl, sub1_cons_nomatch hm⟩)

lemma sub1_at_head {cs y : List Char} (h : sub1 cs = '@' :: y) :
    ∃ cs', cs = '@' :: cs' ∧ sub1 cs' = y := by
  rcases sub1_shape cs with rfl | ⟨g, rest, hm, he⟩ | ⟨c, cs', rfl, hm, he⟩
  · rw [sub1_nil] at h
    simp at h
  · rw [he] at h
    injection h with h1 _
    exact absurd h1 (by decide)
  · rw [he] at h
    injection h with h1 h2
    exact ⟨cs', by rw [← h1], h2⟩

lemma sub1_word_head {cs y : List Char} {d : Char} (hd : isWordChar d) (h : sub1 cs = d :: y) :
    ∃ cs', cs = d :: cs' := by
  rcases sub1_shape cs with rfl | ⟨g, rest, hm, he⟩ | ⟨c, cs', rfl, hm, he⟩
  · rw [sub1_nil] at h
    simp at h
  · rw [he] at h
    injection h with h1 _
    rw [← h1] at hd
    exact absurd hd (by decide)
  · rw [he] at h
    injection h with h1 _
    exact ⟨cs', by rw [← h1]⟩

lemma no_defect1_sub1 : ∀ (n : Nat) (l : List Char), l.length ≤ n →
    hasDefect1 (sub1 l) = false := by
  intro n
  induction n with
  | zero =>
    intro l h
    obtain rfl : l = [] := List.eq_nil_of_length_eq_zero (Nat.le_zero.mp h)
    rfl
  | succ n ih =>
    intro l h
    cases l with
    | nil => rfl
    | cons c cs =>
      cases hm : matchAt1 (c :: cs) with
      | some p =>
        obtain ⟨g, rest⟩ := p
        obtain ⟨w, -, hw_word, rfl, -⟩ := matchAt1_eq hm
        have hlen := matchAt1_length hm
        simp only [List.length_cons] at h hlen
        rw [sub1_cons_match hm]
        have hpre : ∀ x ∈ '[' :: backquote :: '@' :: '@' :: w ++ [backquote, ']'], x ≠ '.' := by
          intro x hx hx'
          subst hx'
          have hw : ('.' : Char) ∉ w := fun hmem => absurd (hw_word _ hmem) (by decide)
          revert hx
          simp only [List.mem_cons, List.mem_append, List.mem_singleton]
          simp +decide [backquote, hw]
        have : '[' :: backquote :: ('@' :: '@' :: w) ++ backquote :: ']' :: sub1 rest =
            ('[' :: backquote :: '@' :: '@' :: w ++ [backquote, ']']) ++ sub1 rest := by
          simp
        rw [this, hasDefect1_append_of_no_dot hpre]
        exact ih rest (by omega)
      | none =>
        simp only [List.length_cons] at h
        rw [sub1_cons_nomatch hm, hasDefect1]
        have htail : hasDefect1 (sub1 cs) = false := ih cs (by omega)
        rw [htail]
        cases hm2 : matchAt1 (c :: sub1 cs) with
        | none => simp
        | some p =>
          obtain ⟨g, rest⟩ := p
          obtain ⟨w, hw_ne, hw_word, -, hshape⟩ := matchAt1_eq hm2
          obtain ⟨wc, w', rfl⟩ : ∃ wc w', w = wc :: w' := by
            cases w with
            | nil => exact absurd rfl hw_ne
            | cons wc w' => exact ⟨wc, w', rfl⟩
          injection hshape with hc hshape'
          obtain ⟨cs1, hcs1, hs1⟩ := sub1_at_head hshape'
          obtain ⟨cs2, hcs2, hs2⟩ := sub1_at_head hs1
          have hwc : isWordChar wc := hw_word wc (by simp)
          obtain ⟨cs3, hcs3⟩ := sub1_word_head hwc hs2
          subst hc hcs1 hcs2 hcs3
          rw [show ('.' :: '@' :: '@' :: wc :: cs3 : List Char) =
            '.' :: '@' :: '@' :: (wc :: cs3) from rfl] at hm
          rw [matchAt1.eq_def] at hm
          simp only [List.takeWhile_cons_of_pos hwc] at hm
          simp at hm

/-! ### The iteration loop -/

lemma rewrite_succ (d : List Char) (n : Nat) :
    rewrite d (n + 1) = onePass (rewrite d n) := by
  unfold rewrite
  rw [List.range_succ, List.foldl_append]
  rfl

lemma rewrite_eq_iterate (d : List Char) (n : Nat) : rewrite d n = onePass^[n] d := by
  induction n with
  | zero => rfl
  | succ n ih => rw [rewrite_succ, ih, Function.iterate_succ_apply' onePass n d]

lemma onePass_iterate_fixed {x : List Char} (hx : onePass x = x) :
    ∀ m, onePass^[m] x = x := by
  intro m
  induction m with
  | zero => rfl
  | succ m ih => rw [Function.iterate_succ_apply', ih, hx]

/-! ### Claims -/

/-- C1: for every text and every non-negative iteration count `n`, the
rewriter equals the `n`-fold composition of a single pass, where one pass is
rule 1 applied to the whole text followed by rule 2 applied to rule 1's
output; the loop performs all `n` passes with no early exit. -/
theorem rewrite_is_iterated_pass (d : List Char) (n : Nat) :
    rewrite d n = (fun t => sub2 (sub1 t))^[n] d :=
  rewrite_eq_iterate d n

/-- C2 counterexample: on the line `x = /a\\/b\\/c/;`, which contains two
over-escaped sequences, a single application of rule 2 does not produce the
text in which the leftmost occurrence is repaired. -/
theorem rule2_not_leftmost_counterexample :
    sub2 ("x = /a\\\\/b\\\\/c/;".toList) ≠ "x = /a\\/b\\\\/c/;".toList := by decide

/-- C2 (amended): whenever rule 2 matches — so in particular when a line
contains more than one over-escaped sequence inside a regex-literal
assignment — the single application corrects only the rightmost occurrence
that is still followed by a slash on the line: the matched line decomposes
around that occurrence, the replacement turns exactly it from `\\/` into
`\/` while copying the whole prefix to its left (which holds every other
occurrence) verbatim, one application of the substitution emits that
replacement and resumes after the match, and every other repairable
occurrence on the line starts at or before the corrected one (maximality of
the prefix length), so occurrences to its left are left for later passes. -/
theorem rule2_single_application_fixes_rightmost (cs repl rest : List Char)
    (h : matchAt2 cs = some (repl, rest)) :
    ∃ r0 a b c,
      cs = '=' :: ' ' :: '/' :: r0 ∧
      r0.takeWhile (fun x => x != '\n') = a ++ '\\' :: '\\' :: '/' :: (b ++ '/' :: c) ∧
      repl = '=' :: ' ' :: '/' :: a ++ '\\' :: '/' :: b ++ ['/'] ∧
      rest = c ++ r0.dropWhile (fun x => x != '\n') ∧
      sub2 cs = repl ++ sub2 rest ∧
      (∀ a' r', r0.takeWhile (fun x => x != '\n') = a' ++ '\\' :: '\\' :: '/' :: r' →
        r'.contains '/' → a'.length ≤ a.length) := by
  obtain ⟨r0, a, r, b, c, hcs, hesc, hslash, hrepl, hrest⟩ := matchAt2_eq h
  have hline := splitLastEsc_eq hesc
  have hr := splitLastSlash_eq hslash
  refine ⟨r0, a, b, c, hcs, ?_, hrepl, hrest, ?_, ?_⟩
  · rw [hline, hr]
  · subst hcs
    exact sub2_cons_match h
  · intro a' r' hdec hr'
    exact splitLastEsc_rightmost hesc a' r' hdec hr'

/-- C2 amended witness: on the two-defect line `= /a\\/b\\/c/;` the single
application of rule 2 matches, fixes the second (rightmost) occurrence,
copies the first one verbatim, and the holes of the decomposition are
realised concretely. -/
theorem rule2_single_application_fixes_rightmost_witness :
    ∃ r0 a b c,
      "= /a\\\\/b\\\\/c/;".toList = '=' :: ' ' :: '/' :: r0 ∧
      r0.takeWhile (fun x => x != '\n') = a ++ '\\' :: '\\' :: '/' :: (b ++ '/' :: c) ∧
      "= /a\\\\/b\\/c/".toList = '=' :: ' ' :: '/' :: a ++ '\\' :: '/' :: b ++ ['/'] ∧
      ";".toList = c ++ r0.dropWhile (fun x => x != '\n') ∧
      sub2 ("= /a\\\\/b\\\\/c/;".toList) = "= /a\\\\/b\\/c/".toList ++ sub2 (";".toList) ∧
      (∀ a' r', r0.takeWhile (fun x => x != '\n') = a' ++ '\\' :: '\\' :: '/' :: r' →
        r'.contains '/' → a'.length ≤ a.length) :=
  rule2_single_application_fixes_rightmost ("= /a\\\\/b\\\\/c/;".toList)
    ("= /a\\\\/b\\/c/".toList) (";".toList) (by decide)

/-- C3: a line with exactly two over-escaped sequences in one regex-literal
assignment still has exactly one of them unrepaired after 1 iteration, and is
fully corrected by every iteration count `n ≥ 2`. -/
theorem two_defects_need_two_iterations :
    rewrite ("var r = /a\\\\/b\\\\/c/;".toList) 1 = "var r = /a\\\\/b\\/c/;".toList ∧
    ∀ n, 2 ≤ n →
      rewrite ("var r = /a\\\\/b\\\\/c/;".toList) n = "var r = /a\\/b\\/c/;".toList := by
  refine ⟨by decide, ?_⟩
  intro n hn
  obtain ⟨m, rfl⟩ := Nat.exists_eq_add_of_le hn
  rw [rewrite_eq_iterate, Nat.add_comm 2 m, Function.iterate_add_apply]
  have h2 : onePass^[2] ("var r = /a\\\\/b\\\\/c/;".toList) = "var r = /a\\/b\\/c/;".toList := by
    decide
  have hfix : onePass ("var r = /a\\/b\\/c/;".toList) = "var r = /a\\/b\\/c/;".toList := by
    decide
  rw [h2, onePass_iterate_fixed hfix]

/-- C3 witness: at iteration count 2 the two-defect line is fully corrected. -/
theorem two_defects_need_two_iterations_witness :
    rewrite ("var r = /a\\\\/b\\\\/c/;".toList) 2 = "var r = /a\\/b\\/c/;".toList :=
  two_defects_need_two_iterations.2 2 (by decide)

/-- C4: if one further pass leaves `rewrite d k` unchanged, every larger
iteration count gives the same result: the rule set is a no-op on
already-fixed text. -/
theorem rewrite_fixed_point_stable (d : List Char) (k k' : Nat)
    (h : rewrite d k = rewrite d (k + 1)) (hk : k ≤ k') :
    rewrite d k' = rewrite d k := by
  have h' : onePass (onePass^[k] d) = onePass^[k] d := by
    rw [← Function.iterate_succ_apply' onePass k d, ← rewrite_eq_iterate, ← rewrite_eq_iterate]
    exact h.symm
  obtain ⟨m, rfl⟩ := Nat.exists_eq_add_of_le hk
  rw [rewrite_eq_iterate, rewrite_eq_iterate, Nat.add_comm k m, Function.iterate_add_apply]
  exact onePass_iterate_fixed h' m

/-- C4 witness: the single-defect line is fixed after 1 iteration, so
iterating 9 times gives the same result as iterating once. -/
theorem rewrite_fixed_point_stable_witness :
    rewrite ("var r = /a\\\\/b/;".toList) 9 = rewrite ("var r = /a\\\\/b/;".toList) 1 :=
  rewrite_fixed_point_stable ("var r = /a\\\\/b/;".toList) 1 9 (by decide) (by decide)

/-- C5: rule 1 rewrites every occurrence of a dot followed by a
`@@`-identifier into bracket access with a backquoted string — after one
application of rule 1 no occurrence of the pattern remains, and in particular
`obj.@@iterator` becomes obj[`@@iterator`] after one iteration, with all
occurrences rewritten when several are present. -/
theorem rule1_rewrites_every_occurrence :
    (∀ l : List Char, hasDefect1 (sub1 l) = false) ∧
    rewrite ("obj.@@iterator".toList) 1 = "obj[`@@iterator`]".toList ∧
    sub1 ("p.@@a+q.@@b".toList) = "p[`@@a`]+q[`@@b`]".toList :=
  ⟨fun l => no_defect1_sub1 l.length l le_rfl, by decide, by decide⟩

/-- C6: the line `var r = /a\\/b/;` with a single over-escaped slash is
repaired to `var r = /a\/b/;` by one iteration. -/
theorem single_escape_repaired_in_one_iteration :
    rewrite ("var r = /a\\\\/b/;".toList) 1 = "var r = /a\\/b/;".toList := by decide

/-- C7: with an iteration count of zero the rewriter returns its input
unchanged, whatever the text. -/
theorem rewrite_zero_iterations_id (d : List Char) : rewrite d 0 = d := rfl

/-- C8: a text in which neither rule's pattern matches anywhere is returned
identical to the input for every iteration count. -/
theorem no_defect_text_unchanged (d : List Char) (h1 : hasDefect1 d = false)
    (h2 : hasDefect2 d = false) (n : Nat) : rewrite d n = d := by
  have hp : onePass d = d := by
    unfold onePass
    rw [sub1_id_of_no_defect d.length d le_rfl h1, sub2_id_of_no_defect d.length d le_rfl h2]
  rw [rewrite_eq_iterate]
  exact onePass_iterate_fixed hp n

/-- C8 witness: the empty string is unchanged (here at 7 iterations), and so
is an ordinary defect-free statement (here at 3 iterations). -/
theorem no_defect_text_unchanged_witness :
    rewrite [] 7 = [] ∧ rewrite ("var x = 1;".toList) 3 = "var x = 1;".toList :=
  ⟨no_defect_text_unchanged [] (by decide) (by decide) 7,
   no_defect_text_unchanged ("var x = 1;".toList) (by decide) (by decide) 3⟩

/-- C9: if the input file cannot be read the tool exits nonzero and writes no
output file; if it can be read, the tool writes exactly the rewritten text
and exits zero — there is no partial-success mode. -/
theorem unreadable_input_aborts_without_output :
    (∀ n, run_tool none n = { written := none, exitZero := false }) ∧
    (∀ d n, run_tool (some d) n = { written := some (rewrite d n), exitZero := true }) :=
  ⟨fun _ => rfl, fun _ _ => rfl⟩

/-- C10: every pass preserves the line structure: for every input and every
iteration count the output has exactly as many newline characters as the
input. -/
theorem rewrite_preserves_newline_count (d : List Char) (n : Nat) :
    (rewrite d n).count '\n' = d.count '\n' := by
  rw [rewrite_eq_iterate]
  induction n with
  | zero => rfl
  | succ n ih =>
    rw [Function.iterate_succ_apply']
    show (sub2 (sub1 (onePass^[n] d))).count '\n' = d.count '\n'
    rw [count_nl_sub2 _ _ le_rfl, count_nl_sub1 _ _ le_rfl, ih]

end JSRETK
